import Mathlib

/-!
Verification development for the company-research-agent pipeline core.

The Python source is shallowly embedded: Python strings are modelled as
`String` (opaque uses) or `List Char` (where character-level processing
matters: `str.split`, `str.strip`, slicing, `len`); Python dicts used as
URL-keyed maps are modelled as association lists with in-place update
(insertion-ordered, one entry per key, matching dict assignment);
`float(x)` applied to a score value is modelled by `FVal` (a value it
accepts, carrying a rational, or one it rejects, raising); awaited
provider calls that may raise are modelled as `Except Unit` outcomes
supplied as parameters; status-broadcaster notifications are best-effort
external effects assumed not to raise (spec sections 2 and 6) and are
modelled only where a claim observes them (request/call flags).
-/

namespace CRA

/-! ## Python string primitives over `List Char` -/

/-- Trim leading whitespace, as in Python `str.strip` (left half). -/
def trimL (l : List Char) : List Char := l.dropWhile Char.isWhitespace

/-- Python `str.strip`: drop whitespace from both ends. -/
def pyStrip (l : List Char) : List Char :=
  ((trimL l).reverse.dropWhile Char.isWhitespace).reverse

/-- Python `s.split('\n')`: split on every newline, keeping empty segments;
always returns at least one segment. -/
def splitNl : List Char → List (List Char)
  | [] => [[]]
  | c :: cs =>
    if c = '\n' then [] :: splitNl cs
    else (c :: (splitNl cs).headI) :: (splitNl cs).tail

theorem splitNl_nil : splitNl [] = [[]] := rfl

theorem splitNl_cons_nl (cs : List Char) : splitNl ('\n' :: cs) = [] :: splitNl cs := by
  simp [splitNl]

theorem splitNl_cons_ne {c : Char} (cs : List Char) (h : ¬c = '\n') :
    splitNl (c :: cs) = (c :: (splitNl cs).headI) :: (splitNl cs).tail := by
  simp [splitNl, h]

theorem splitNl_ne_nil (l : List Char) : splitNl l ≠ [] := by
  cases l with
  | nil => simp [splitNl]
  | cons c cs =>
    by_cases hc : c = '\n'
    · subst hc; rw [splitNl_cons_nl]; simp
    · rw [splitNl_cons_ne cs hc]; simp

theorem splitNl_of_not_mem {l : List Char} (h : '\n' ∉ l) : splitNl l = [l] := by
  induction l with
  | nil => rfl
  | cons c cs ih =>
    simp only [List.mem_cons, not_or] at h
    have hc : ¬c = '\n' := fun hh => h.1 hh.symm
    rw [splitNl_cons_ne cs hc, ih h.2]
    rfl

/-- Every segment produced by `splitNl` is newline-free. -/
theorem not_mem_of_mem_splitNl {l : List Char} {s : List Char}
    (hs : s ∈ splitNl l) : '\n' ∉ s := by
  induction l generalizing s with
  | nil =>
    rw [splitNl_nil, List.mem_singleton] at hs
    subst hs; simp
  | cons c cs ih =>
    by_cases hc : c = '\n'
    · subst hc
      rw [splitNl_cons_nl, List.mem_cons] at hs
      rcases hs with h1 | h1
      · subst h1; simp
      · exact ih h1
    · rw [splitNl_cons_ne cs hc, List.mem_cons] at hs
      rcases hn : splitNl cs with _ | ⟨a, t⟩
      · exact absurd hn (splitNl_ne_nil cs)
      · rw [hn] at hs
        rcases hs with h1 | h1
        · subst h1
          intro hmem
          rcases List.mem_cons.mp hmem with h2 | h2
          · exact hc h2.symm
          · have ha : a ∈ splitNl cs := by rw [hn]; exact List.mem_cons_self a t
            exact ih ha h2
        · have hs2 : s ∈ splitNl cs := by rw [hn]; exact List.mem_cons_of_mem a h1
          exact ih hs2

/-- Key compositionality of Python newline splitting under concatenation. -/
theorem splitNl_append (a b : List Char) :
    splitNl (a ++ b) = (splitNl a).dropLast ++ splitNl ((splitNl a).getLastD [] ++ b) := by
  induction a with
  | nil => simp [splitNl]
  | cons c cs ih =>
    rcases hn : splitNl cs with _ | ⟨h0, t⟩
    · exact absurd hn (splitNl_ne_nil cs)
    · rw [hn] at ih
      by_cases hc : c = '\n'
      · subst hc
        have hcc : splitNl ('\n' :: cs) = [] :: h0 :: t := by rw [splitNl_cons_nl, hn]
        rw [List.cons_append, splitNl_cons_nl, ih, hcc]
        rfl
      · have hcc : splitNl (c :: cs) = (c :: h0) :: t := by
          rw [splitNl_cons_ne cs hc, hn]
          rfl
        cases t with
        | nil =>
          have ih2 : splitNl (cs ++ b) = splitNl (h0 ++ b) := by rw [ih]; rfl
          rw [List.cons_append, splitNl_cons_ne _ hc, ih2, hcc]
          have e : ([c :: h0].dropLast ++ splitNl ([c :: h0].getLastD [] ++ b))
              = splitNl (c :: (h0 ++ b)) := rfl
          rw [e, splitNl_cons_ne _ hc]
        | cons h1 t1 =>
          have ih2 : splitNl (cs ++ b)
              = h0 :: (List.dropLast (h1 :: t1) ++ splitNl ((h1 :: t1).getLastD [] ++ b)) := by
            rw [ih]; rfl
          rw [List.cons_append, splitNl_cons_ne _ hc, ih2, hcc]
          rfl

/-! ## QueryGenerator: streaming token accumulation (`generate_queries`) -/

/-- Segments finalized from one `split('\n')`: each part is stripped and
empty parts are skipped, as in the source's `for query in parts[:-1]` loop. -/
def cleanSeg (l : List (List Char)) : List (List Char) :=
  (l.map pyStrip).filter (fun q => q ≠ [])

/-- Accumulator of the streaming loop: finalized queries plus the
`current_query` buffer. -/
structure GenSt where
  queries : List (List Char)
  buf : List Char
deriving DecidableEq

/-- One iteration of the `async for chunk in response` loop body for a
content token: skip falsy content, append to the buffer, and on a newline
finalize all parts before the last and keep the last as the new buffer. -/
def genStep (st : GenSt) (tok : List Char) : GenSt :=
  if tok = [] then st
  else
    let b := st.buf ++ tok
    if '\n' ∈ b then
      { queries := st.queries ++ cleanSeg (splitNl b).dropLast,
        buf := (splitNl b).getLastD [] }
    else { st with buf := b }

/-- After the stream ends: `if current_query.strip(): queries.append(...)`. -/
def genFinish (st : GenSt) : List (List Char) :=
  if pyStrip st.buf ≠ [] then st.queries ++ [pyStrip st.buf] else st.queries

/-- The full streamed-token accumulation of `generate_queries`. -/
def processTokens (toks : List (List Char)) : List (List Char) :=
  genFinish (toks.foldl genStep ⟨[], []⟩)

/-- Declarative description: the nonempty stripped newline-separated lines
of the whole streamed text, in order. -/
def splitQueries (s : List Char) : List (List Char) :=
  cleanSeg (splitNl s)

theorem cleanSeg_append (a b : List (List Char)) :
    cleanSeg (a ++ b) = cleanSeg a ++ cleanSeg b := by
  simp [cleanSeg]

theorem cleanSeg_single (x : List Char) :
    cleanSeg [x] = if pyStrip x ≠ [] then [pyStrip x] else [] := by
  by_cases h : pyStrip x = [] <;> simp [cleanSeg, h]

theorem splitQueries_decomp (s : List Char) :
    splitQueries s = cleanSeg (splitNl s).dropLast
      ++ (if pyStrip ((splitNl s).getLastD []) ≠ [] then [pyStrip ((splitNl s).getLastD [])] else []) := by
  have hne := splitNl_ne_nil s
  have hd : (splitNl s).getLastD [] = (splitNl s).getLast hne := by
    rw [List.getLastD_eq_getLast?, List.getLast?_eq_getLast _ hne]
    rfl
  rw [hd]
  conv_lhs => rw [splitQueries, ← List.dropLast_append_getLast hne]
  rw [cleanSeg_append, cleanSeg_single]

/-- The streamed fold, started anywhere, finalizes to the already-finalized
queries plus the declarative split of the pending text. -/
theorem processTokens_invariant (toks : List (List Char)) :
    ∀ qs buf, '\n' ∉ buf →
      genFinish (toks.foldl genStep ⟨qs, buf⟩) = qs ++ splitQueries (buf ++ toks.flatten) := by
  induction toks with
  | nil =>
    intro qs buf hb
    have h1 : splitNl buf = [buf] := splitNl_of_not_mem hb
    simp only [List.foldl_nil, List.flatten_nil, List.append_nil, genFinish, splitQueries, h1]
    simp only [cleanSeg, List.map_cons, List.map_nil]
    split <;> rename_i hh
    · simp [List.filter, hh]
    · simp only [ne_eq, not_not] at hh
      simp [List.filter, hh]
  | cons t ts ih =>
    intro qs buf hb
    by_cases ht : t = []
    · subst ht
      simp only [List.foldl_cons, genStep, if_pos rfl, List.flatten_cons, List.nil_append]
      exact ih qs buf hb
    · simp only [List.foldl_cons, genStep, if_neg ht, List.flatten_cons]
      by_cases hnl : '\n' ∈ buf ++ t
      · simp only [if_pos hnl]
        have hlast : '\n' ∉ (splitNl (buf ++ t)).getLastD [] := by
          have hmem : (splitNl (buf ++ t)).getLastD [] ∈ splitNl (buf ++ t) := by
            rcases hs : splitNl (buf ++ t) with _ | ⟨a, u⟩
            · exact absurd hs (splitNl_ne_nil _)
            · rw [List.getLastD_cons]
              exact List.getLastD_mem_cons u a
          exact not_mem_of_mem_splitNl hmem
        rw [ih _ _ hlast, List.append_assoc, ← List.append_assoc buf t ts.flatten]
        have hsq : splitQueries ((buf ++ t) ++ ts.flatten)
            = cleanSeg (splitNl (buf ++ t)).dropLast
              ++ cleanSeg (splitNl ((splitNl (buf ++ t)).getLastD [] ++ ts.flatten)) := by
          rw [show splitQueries ((buf ++ t) ++ ts.flatten)
              = cleanSeg (splitNl ((buf ++ t) ++ ts.flatten)) from rfl,
            splitNl_append (buf ++ t) ts.flatten, cleanSeg_append]
        rw [hsq]
        rfl
      · simp only [if_neg hnl]
        rw [ih _ _ hnl, List.append_assoc]

/-- Chunking invariance: the streaming loop computes exactly the stripped
nonempty newline-separated lines of the concatenated token text. -/
theorem processTokens_eq_splitQueries (toks : List (List Char)) :
    processTokens toks = splitQueries toks.flatten := by
  have h := processTokens_invariant toks [] [] (by simp)
  simpa [processTokens] using h

/-! ## QueryGenerator: retry loop and fallback (`generate_queries`, `_fallback_queries`) -/

/-- Outcome of one attempt's provider interaction: a timeout or exception,
or a successfully consumed token stream. -/
inductive Attempt where
  | failed : Attempt
  | stream (toks : List (List Char)) : Attempt

/-- One attempt of the retry loop: a failed request is `none`; a consumed
stream yields its accumulated queries, but zero queries raise
(`ValueError`) and count as attempt failure; on success the list is
truncated to 4 (`queries = queries[:4]`). -/
def attemptQueries : Attempt → Option (List String)
  | .failed => none
  | .stream toks =>
    let qs := processTokens toks
    if qs = [] then none else some ((qs.take 4).map fun l => String.mk l)

/-- `_fallback_queries`: deterministic queries from analyst type, company
and current year. -/
def fallbackQueries (analyst company : String) (year : Nat) : List String :=
  if analyst = "company_analyzer" then
    [s!"{company} company overview {year}",
     s!"{company} business model",
     s!"{company} products and services",
     s!"{company} leadership team"]
  else if analyst = "financial_analyzer" then
    [s!"{company} financial performance {year}",
     s!"{company} revenue {year}",
     s!"{company} financial reports {year}",
     s!"{company} profit margin"]
  else if analyst = "industry_analyzer" then
    [s!"{company} industry position {year}",
     s!"{company} market share",
     s!"{company} competitors analysis",
     s!"{company} industry trends {year}"]
  else if analyst = "news_analyzer" then
    [s!"{company} latest news {year}",
     s!"{company} recent developments",
     s!"{company} press releases {year}",
     s!"{company} recent announcements"]
  else
    [s!"{company} overview {year}",
     s!"{company} recent news {year}",
     s!"{company} financial reports {year}",
     s!"{company} industry analysis {year}"]

/-- `generate_queries` over its `max_retries = 3` attempts: the first
successful attempt's (truncated) query list is returned; after the third
failure the deterministic fallback list is returned instead of raising. -/
def generate_queries (analyst company : String) (year : Nat)
    (a1 a2 a3 : Attempt) : List String :=
  match attemptQueries a1 with
  | some qs => qs
  | none =>
    match attemptQueries a2 with
    | some qs => qs
    | none =>
      match attemptQueries a3 with
      | some qs => qs
      | none => fallbackQueries analyst company year

theorem fallbackQueries_length (analyst company : String) (year : Nat) :
    (fallbackQueries analyst company year).length = 4 := by
  unfold fallbackQueries
  split <;> try rfl
  split <;> try rfl
  split <;> try rfl
  split <;> rfl

theorem attemptQueries_length_le {a : Attempt} {qs : List String}
    (h : attemptQueries a = some qs) : qs.length ≤ 4 := by
  cases a with
  | failed => simp [attemptQueries] at h
  | stream toks =>
    simp only [attemptQueries] at h
    split at h
    · exact absurd h (by simp)
    · cases h
      simp only [List.length_map]
      exact le_trans (List.length_take_le 4 _) (le_refl 4)

/-- C1: if all 3 attempts of `generate_queries` fail (timeout, exception,
or an empty stream, which raises and is caught as an attempt failure), the
function returns the deterministic fallback list determined only by the
analyst type, company name and current year, without raising; and every
call — fallback or successful stream — returns at most 4 queries. -/
theorem generate_queries_fallback_and_bound
    (analyst company : String) (year : Nat) (a1 a2 a3 : Attempt)
    (h1 : attemptQueries a1 = none) (h2 : attemptQueries a2 = none)
    (h3 : attemptQueries a3 = none) :
    generate_queries analyst company year a1 a2 a3 = fallbackQueries analyst company year ∧
    ∀ b1 b2 b3 : Attempt, (generate_queries analyst company year b1 b2 b3).length ≤ 4 := by
  constructor
  · simp [generate_queries, h1, h2, h3]
  · intro b1 b2 b3
    unfold generate_queries
    cases hq1 : attemptQueries b1 with
    | some qs => exact attemptQueries_length_le hq1
    | none =>
      cases hq2 : attemptQueries b2 with
      | some qs => exact attemptQueries_length_le hq2
      | none =>
        cases hq3 : attemptQueries b3 with
        | some qs => exact attemptQueries_length_le hq3
        | none => exact le_of_eq (fallbackQueries_length analyst company year)

/-- Witness for C1 at a concrete call: all three attempts time out and the
fallback list for `company_analyzer` of `ACME` in 2025 is returned; a
successful streamed call stays within the 4-query bound. -/
theorem generate_queries_fallback_and_bound_witness :
    generate_queries "company_analyzer" "ACME" 2025 .failed .failed .failed
      = fallbackQueries "company_analyzer" "ACME" 2025 ∧
    (generate_queries "company_analyzer" "ACME" 2025
      (.stream ["ACME news\nACME products\n".data]) .failed .failed).length ≤ 4 :=
  ⟨(generate_queries_fallback_and_bound "company_analyzer" "ACME" 2025
      .failed .failed .failed rfl rfl rfl).1,
   (generate_queries_fallback_and_bound "company_analyzer" "ACME" 2025
      .failed .failed .failed rfl rfl rfl).2 _ _ _⟩

/-- C2: the streamed token loop accumulates tokens into a buffer,
finalizes (stripped, nonempty) content before each newline as one
completed query resetting the buffer to the remainder, and finalizes any
non-empty trailing buffer when the stream ends — so the result is exactly
the cleaned newline-separated lines of the concatenated stream text,
independent of chunking; in particular the token text "A\nB\nC" (as one
chunk or three) yields exactly ["A", "B", "C"] in order. -/
theorem processTokens_characterization :
    (∀ toks : List (List Char), processTokens toks = splitQueries toks.flatten) ∧
    processTokens ["A\n".data, "B\n".data, "C".data] = ["A".data, "B".data, "C".data] ∧
    processTokens ["A\nB\nC".data] = ["A".data, "B".data, "C".data] := by
  refine ⟨processTokens_eq_splitQueries, ?_, ?_⟩ <;> decide

/-! ## SearchFanout (`search_single_query`, `search_documents`) -/

/-- A raw provider hit (`results["results"]` item); absent `content`,
`url` or `title` are modelled as `""` (both are falsy in the source's
checks), absent `score` as `0.0`. -/
structure RawHit where
  url : String
  title : String
  content : String
  score : Rat
deriving DecidableEq

/-- A merged document as stored in the URL-keyed map. -/
structure Doc where
  title : String
  content : String
  query : String
  url : String
  score : Rat
deriving DecidableEq

/-- The skip test: `if not result.get("content") or not result.get("url"): continue`. -/
def passes (h : RawHit) : Bool := h.content != "" && h.url != ""

/-- Title normalization: a truthy title is cleaned by the external
`clean_title` (a parameter of the embedding), then blanked if it equals
the URL case-insensitively or strips to nothing. -/
def normTitle (cleanTitle : String → String) (h : RawHit) : String :=
  if h.title = "" then h.title
  else
    let t := cleanTitle h.title
    if t.toLower = h.url.toLower ∨ t.trim = "" then "" else t

/-- The document entry written into the map for a passing hit. -/
def mkDoc (cleanTitle : String → String) (q : String) (h : RawHit) : Doc :=
  { title := normTitle cleanTitle h
    content := h.content
    query := q
    url := h.url
    score := h.score }

/-- Python dict assignment `docs[url] = ...`: replace in place or append. -/
def upsert (m : List (String × Doc)) (k : String) (v : Doc) : List (String × Doc) :=
  match m with
  | [] => [(k, v)]
  | (k0, v0) :: rest => if k0 = k then (k0, v) :: rest else (k0, v0) :: upsert rest k v

/-- Python dict key lookup on the association-list model. -/
def lookupA (m : List (String × Doc)) (u : String) : Option Doc :=
  match m with
  | [] => none
  | (k0, v0) :: rest => if k0 = u then some v0 else lookupA rest u

/-- The inner merge loop over one query's hit list. -/
def mergeHits (cleanTitle : String → String) (m : List (String × Doc))
    (q : String) (hits : List RawHit) : List (String × Doc) :=
  hits.foldl (fun m h => if passes h then upsert m h.url (mkDoc cleanTitle q h) else m) m

/-- The merge over `zip(queries, results)` in `search_documents`. -/
def mergeBatches (cleanTitle : String → String)
    (batch : List (String × List RawHit)) : List (String × Doc) :=
  batch.foldl (fun m b => mergeHits cleanTitle m b.1 b.2) []

/-- All (query, hit) pairs in the order the merge processes them. -/
def flatPairs (batch : List (String × List RawHit)) : List (String × RawHit) :=
  (batch.map (fun b => b.2.map (fun h => (b.1, h)))).flatten

/-- One merge step on a (query, hit) pair. -/
def stepPair (cleanTitle : String → String) (m : List (String × Doc))
    (p : String × RawHit) : List (String × Doc) :=
  if passes p.2 then upsert m p.2.url (mkDoc cleanTitle p.1 p.2) else m

/-- Split on every whitespace character, keeping empty segments. -/
def splitWs : List Char → List (List Char)
  | [] => [[]]
  | c :: cs =>
    if c.isWhitespace then [] :: splitWs cs
    else (c :: (splitWs cs).headI) :: (splitWs cs).tail

/-- Python `query.split()`: whitespace-separated words, empties dropped. -/
def pyWords (s : String) : List (List Char) :=
  (splitWs s.data).filter (fun w => w ≠ [])

/-- `search_single_query`: rejects empty or shorter-than-3-word queries
before any provider request (first component: was a request issued?);
a provider exception degrades to an empty map for this one call. -/
def search_single_query (cleanTitle : String → String) (q : String)
    (outcome : Except Unit (List RawHit)) : Bool × List (String × Doc) :=
  if q = "" ∨ (pyWords q).length < 3 then (false, [])
  else
    match outcome with
    | .error _ => (true, [])
    | .ok hits => (true, mergeHits cleanTitle [] q hits)

/-- `asyncio.gather`: succeeds with all results or raises if any task raised. -/
def gatherRes : List (Except Unit (List RawHit)) → Except Unit (List (List RawHit))
  | [] => .ok []
  | o :: os =>
    match o with
    | .error _ => .error ()
    | .ok r =>
      match gatherRes os with
      | .ok rs => .ok (r :: rs)
      | .error _ => .error ()

/-- `search_documents`: an empty query list short-circuits; otherwise all
queries are dispatched (first component), the gather failure of any task
empties the whole batch, and otherwise results are merged by URL. -/
def search_documents (cleanTitle : String → String) (queries : List String)
    (outcomes : List (Except Unit (List RawHit))) :
    List String × List (String × Doc) :=
  if queries = [] then ([], [])
  else
    match gatherRes outcomes with
    | .error _ => (queries, [])
    | .ok results => (queries, mergeBatches cleanTitle (queries.zip results))

theorem mem_upsert_or {m : List (String × Doc)} {k : String} {v : Doc}
    {p : String × Doc} (hp : p ∈ upsert m k v) : p ∈ m ∨ p = (k, v) := by
  induction m with
  | nil => simpa [upsert] using hp
  | cons e rest ih =>
    rcases e with ⟨k0, v0⟩
    by_cases hk : k0 = k
    · simp only [upsert, if_pos hk, List.mem_cons] at hp
      rcases hp with h | h
      · right; rw [h, hk]
      · left; exact List.mem_cons_of_mem _ h
    · simp only [upsert, if_neg hk, List.mem_cons] at hp
      rcases hp with h | h
      · left; simp [h]
      · rcases ih h with h2 | h2
        · left; exact List.mem_cons_of_mem _ h2
        · right; exact h2

theorem lookupA_upsert (m : List (String × Doc)) (k : String) (v : Doc) (u : String) :
    lookupA (upsert m k v) u = if k = u then some v else lookupA m u := by
  induction m with
  | nil => simp [upsert, lookupA]
  | cons e rest ih =>
    rcases e with ⟨k0, v0⟩
    by_cases hk : k0 = k
    · subst hk
      by_cases hu : k0 = u
      · simp [upsert, lookupA, hu]
      · simp [upsert, lookupA, hu]
    · by_cases hu : k0 = u
      · subst hu
        have hk2 : ¬k = k0 := fun h => hk h.symm
        simp [upsert, lookupA, hk, hk2]
      · simp [upsert, lookupA, hk, hu, ih]

theorem mem_keys_upsert {m : List (String × Doc)} {k : String} {v : Doc} {u : String}
    (h : u ∈ (upsert m k v).map Prod.fst) : u ∈ m.map Prod.fst ∨ u = k := by
  induction m with
  | nil => simpa [upsert] using h
  | cons e rest ih =>
    rcases e with ⟨k0, v0⟩
    by_cases hk : k0 = k
    · simp only [upsert, if_pos hk, List.map_cons, List.mem_cons] at h
      rcases h with h | h
      · left; simp [h]
      · left; simp [List.mem_cons_of_mem, h]
    · simp only [upsert, if_neg hk, List.map_cons, List.mem_cons] at h
      rcases h with h | h
      · left; simp [h]
      · rcases ih h with h2 | h2
        · left; simp only [List.map_cons, List.mem_cons]; right; exact h2
        · right; exact h2

theorem nodup_keys_upsert {m : List (String × Doc)} {k : String} {v : Doc}
    (h : (m.map Prod.fst).Nodup) : ((upsert m k v).map Prod.fst).Nodup := by
  induction m with
  | nil => simp [upsert]
  | cons e rest ih =>
    rcases e with ⟨k0, v0⟩
    simp only [List.map_cons, List.nodup_cons] at h
    by_cases hk : k0 = k
    · simp only [upsert, if_pos hk, List.map_cons, List.nodup_cons]
      exact h
    · simp only [upsert, if_neg hk, List.map_cons, List.nodup_cons]
      refine ⟨fun hmem => ?_, ih h.2⟩
      rcases mem_keys_upsert hmem with h2 | h2
      · exact h.1 h2
      · exact hk h2

theorem mergeHits_eq_flat (cleanTitle : String → String) (m : List (String × Doc))
    (q : String) (hits : List RawHit) :
    mergeHits cleanTitle m q hits
      = (hits.map (fun h => (q, h))).foldl (stepPair cleanTitle) m := by
  rw [List.foldl_map]
  rfl

theorem mergeBatches_eq_flat (cleanTitle : String → String)
    (batch : List (String × List RawHit)) :
    ∀ m, batch.foldl (fun m b => mergeHits cleanTitle m b.1 b.2) m
      = (flatPairs batch).foldl (stepPair cleanTitle) m := by
  induction batch with
  | nil => intro m; simp [flatPairs]
  | cons b rest ih =>
    intro m
    simp only [List.foldl_cons, flatPairs, List.map_cons, List.flatten_cons, List.foldl_append]
    rw [mergeHits_eq_flat]
    exact ih _

/-- Every entry of the fold over passing (query, hit) pairs is keyed by its
document's URL and is the image of some passing hit. -/
theorem foldl_stepPair_entries (cleanTitle : String → String)
    (ps : List (String × RawHit)) :
    ∀ m, (∀ p ∈ m, p.1 = p.2.url ∧ ∃ q h, passes h = true ∧ p.2 = mkDoc cleanTitle q h) →
      ∀ p ∈ ps.foldl (stepPair cleanTitle) m,
        p.1 = p.2.url ∧ ∃ q h, passes h = true ∧ p.2 = mkDoc cleanTitle q h := by
  induction ps with
  | nil => intro m hm p hp; exact hm p hp
  | cons x xs ih =>
    intro m hm p hp
    refine ih _ ?_ p hp
    intro r hr
    simp only [stepPair] at hr
    split at hr
    · rcases mem_upsert_or hr with h | h
      · exact hm r h
      · subst h
        refine ⟨by simp [mkDoc], x.1, x.2, by assumption, rfl⟩
    · exact hm r hr

theorem nodup_foldl_stepPair (cleanTitle : String → String)
    (ps : List (String × RawHit)) :
    ∀ m, ((m.map Prod.fst).Nodup) →
      (((ps.foldl (stepPair cleanTitle) m).map Prod.fst).Nodup) := by
  induction ps with
  | nil => intro m hm; exact hm
  | cons x xs ih =>
    intro m hm
    refine ih _ ?_
    simp only [stepPair]
    split
    · exact nodup_keys_upsert hm
    · exact hm

/-- The document built from the last passing (query, hit) pair for a URL,
in processing order — the "later query wins" winner. -/
def lastWin (cleanTitle : String → String) (ps : List (String × RawHit))
    (u : String) : Option Doc :=
  ((ps.filter (fun p => passes p.2 && (p.2.url == u))).getLast?).map
    (fun p => mkDoc cleanTitle p.1 p.2)

theorem lastWin_nil (cleanTitle : String → String) (u : String) :
    lastWin cleanTitle [] u = none := rfl

/-- Last-winner characterization of the merged map under the fold. -/
theorem lookupA_foldl_stepPair (cleanTitle : String → String)
    (ps : List (String × RawHit)) :
    ∀ m u, lookupA (ps.foldl (stepPair cleanTitle) m) u
      = match lastWin cleanTitle ps u with
        | some d => some d
        | none => lookupA m u := by
  induction ps with
  | nil => intro m u; simp [lastWin]
  | cons x xs ih =>
    intro m u
    simp only [List.foldl_cons]
    rw [ih (stepPair cleanTitle m x) u]
    by_cases hpred : (passes x.2 && (x.2.url == u)) = true
    · have hpass : passes x.2 = true := by
        simpa using (Bool.and_elim_left hpred)
      have hurl : x.2.url = u := by
        have := Bool.and_elim_right hpred
        simpa [beq_iff_eq] using this
      rcases hf : (xs.filter (fun p => passes p.2 && (p.2.url == u))).getLast? with _ | p
      · have hlw : lastWin cleanTitle xs u = none := by simp [lastWin, hf]
        have hlw2 : lastWin cleanTitle (x :: xs) u = some (mkDoc cleanTitle x.1 x.2) := by
          have h0 : (xs.filter (fun p => passes p.2 && (p.2.url == u))) = [] := by
            cases hvv : (xs.filter (fun p => passes p.2 && (p.2.url == u))) with
            | nil => rfl
            | cons y ys =>
              rw [hvv] at hf
              exact absurd hf (by simp [List.getLast?])
          simp [lastWin, List.filter_cons, hpred, h0]
        rw [hlw, hlw2]
        simp [stepPair, if_pos hpass, lookupA_upsert, hurl]
      · have hlw : lastWin cleanTitle xs u = some (mkDoc cleanTitle p.1 p.2) := by
          simp [lastWin, hf]
        have hlw2 : lastWin cleanTitle (x :: xs) u = some (mkDoc cleanTitle p.1 p.2) := by
          have h1 : (List.filter (fun p => passes p.2 && (p.2.url == u)) (x :: xs)).getLast?
              = some p := by
            rw [List.filter_cons, if_pos hpred]
            cases hvv : (xs.filter (fun p => passes p.2 && (p.2.url == u))) with
            | nil => rw [hvv] at hf; exact absurd hf (by simp)
            | cons y ys =>
              rw [hvv] at hf
              rw [List.getLast?_cons_cons]
              exact hf
          simp [lastWin, h1]
        rw [hlw, hlw2]
    · have hlw2 : lastWin cleanTitle (x :: xs) u = lastWin cleanTitle xs u := by
        simp [lastWin, List.filter_cons, hpred]
      rw [hlw2]
      rcases hw : lastWin cleanTitle xs u with _ | d
      · simp only []
        simp only [stepPair]
        by_cases hpass : passes x.2 = true
        · have hurl : ¬x.2.url = u := by
            intro hu
            exact hpred (by simp [hpass, hu])
          rw [if_pos hpass, lookupA_upsert, if_neg hurl]
        · rw [if_neg hpass]
      · rfl

/-- The merged map of `search_documents` is the flat fold over all
(query, hit) pairs. -/
theorem mergeBatches_flat (cleanTitle : String → String)
    (batch : List (String × List RawHit)) :
    mergeBatches cleanTitle batch = (flatPairs batch).foldl (stepPair cleanTitle) [] :=
  mergeBatches_eq_flat cleanTitle batch []

theorem lookupA_mergeBatches (cleanTitle : String → String)
    (batch : List (String × List RawHit)) (u : String) :
    lookupA (mergeBatches cleanTitle batch) u = lastWin cleanTitle (flatPairs batch) u := by
  rw [mergeBatches_flat, lookupA_foldl_stepPair]
  rcases h : lastWin cleanTitle (flatPairs batch) u with _ | d
  · simp [lookupA]
  · rfl

theorem gatherRes_error {outcomes : List (Except Unit (List RawHit))}
    (h : Except.error () ∈ outcomes) : gatherRes outcomes = .error () := by
  induction outcomes with
  | nil => simp at h
  | cons o os ih =>
    rcases List.mem_cons.mp h with h1 | h1
    · subst h1; rfl
    · cases o with
      | error e => rfl
      | ok r => simp [gatherRes, ih h1]

theorem gatherRes_map_ok (results : List (List RawHit)) :
    gatherRes (results.map Except.ok) = .ok results := by
  induction results with
  | nil => rfl
  | cons r rs ih => simp [gatherRes, ih]

theorem passes_iff {h : RawHit} : passes h = true ↔ h.content ≠ "" ∧ h.url ≠ "" := by
  simp [passes]

/-- C3: the merged map of a search batch contains no entry with empty
content or url; its keys are unique, each entry is keyed by its document's
URL and stored under the last passing (query, hit) pair for that URL in
query order (later query wins); titles are blanked whenever the cleaned
title equals the URL case-insensitively or strips to blank; and on a
successful batch `search_documents` returns exactly this merge. -/
theorem search_documents_merge_properties :
    (∀ ct : String → String, ∀ batch, ∀ p ∈ mergeBatches ct batch,
        p.2.content ≠ "" ∧ p.2.url ≠ "" ∧ p.1 = p.2.url ∧
        ∃ q h, passes h = true ∧ p.2 = mkDoc ct q h) ∧
    (∀ ct : String → String, ∀ batch, ((mergeBatches ct batch).map Prod.fst).Nodup) ∧
    (∀ ct : String → String, ∀ batch u,
        lookupA (mergeBatches ct batch) u = lastWin ct (flatPairs batch) u) ∧
    (∀ ct : String → String, ∀ q h,
        ((ct h.title).toLower = h.url.toLower ∨ (ct h.title).trim = "") →
        (mkDoc ct q h).title = "") ∧
    (∀ ct : String → String, ∀ queries results, queries ≠ [] →
        (search_documents ct queries (results.map Except.ok)).2
          = mergeBatches ct (queries.zip results)) := by
  refine ⟨?_, ?_, ?_, ?_, ?_⟩
  · intro ct batch p hp
    rw [mergeBatches_flat] at hp
    obtain ⟨hkey, q, h, hpass, hdoc⟩ :=
      foldl_stepPair_entries ct (flatPairs batch) [] (by simp) p hp
    have hcu := passes_iff.mp hpass
    refine ⟨?_, ?_, hkey, q, h, hpass, hdoc⟩
    · rw [hdoc]; simpa [mkDoc] using hcu.1
    · rw [hdoc]; simpa [mkDoc] using hcu.2
  · intro ct batch
    rw [mergeBatches_flat]
    exact nodup_foldl_stepPair ct (flatPairs batch) [] (by simp)
  · exact lookupA_mergeBatches
  · intro ct q h hcond
    by_cases ht : h.title = ""
    · simp [mkDoc, normTitle, ht]
    · simp only [mkDoc, normTitle, if_neg ht]
      rw [if_pos hcond]
  · intro ct queries results hq
    simp [search_documents, hq, gatherRes_map_ok]

/-- Witness for C3 at concrete inputs: in a two-query batch hitting the
same URL the later query's document wins, a title equal to its URL is
blanked, and a successful one-query batch merge is returned as stated. -/
theorem search_documents_merge_properties_witness :
    lookupA
        (mergeBatches (fun s => s)
          [("q1", [⟨"u", "T", "c1", 0⟩]), ("q2", [⟨"u", "", "c2", 0⟩])]) "u"
      = lastWin (fun s => s)
          (flatPairs [("q1", [⟨"u", "T", "c1", 0⟩]), ("q2", [⟨"u", "", "c2", 0⟩])]) "u" ∧
    (mkDoc (fun s => s) "q" ⟨"u", "u", "c", 0⟩).title = "" ∧
    (search_documents (fun s => s) ["alpha beta gamma"]
        ([[⟨"u", "", "c", 0⟩]].map Except.ok)).2
      = mergeBatches (fun s => s) (["alpha beta gamma"].zip [[⟨"u", "", "c", 0⟩]]) ∧
    ("u", mkDoc (fun s => s) "q" ⟨"u", "", "c", 0⟩).2.content ≠ "" :=
  ⟨search_documents_merge_properties.2.2.1 (fun s => s) _ "u",
   search_documents_merge_properties.2.2.2.1 (fun s => s) "q" ⟨"u", "u", "c", 0⟩
     (Or.inl rfl),
   search_documents_merge_properties.2.2.2.2 (fun s => s) ["alpha beta gamma"]
     [[⟨"u", "", "c", 0⟩]] (by simp),
   (search_documents_merge_properties.1 (fun s => s) [("q", [⟨"u", "", "c", 0⟩])]
     ("u", mkDoc (fun s => s) "q" ⟨"u", "", "c", 0⟩) (by decide)).1⟩

/-- C5: if any per-query request in the batch fan-out raises, the whole
batch degrades to the empty mapping without raising; the single-query
variant fails independently — an exception empties only that one call,
and a successful single call returns its own merge regardless of other
calls. -/
theorem search_failure_semantics (ct : String → String) (queries : List String)
    (outcomes : List (Except Unit (List RawHit)))
    (h : Except.error () ∈ outcomes) :
    (search_documents ct queries outcomes).2 = [] ∧
    (∀ q, (search_single_query ct q (.error ())).2 = []) ∧
    (∀ q hits, (search_single_query ct q (.ok hits)).2
        = if q = "" ∨ (pyWords q).length < 3 then [] else mergeHits ct [] q hits) := by
  refine ⟨?_, ?_, ?_⟩
  · by_cases hq : queries = []
    · simp [search_documents, hq]
    · simp [search_documents, hq, gatherRes_error h]
  · intro q
    unfold search_single_query
    split <;> rfl
  · intro q hits
    unfold search_single_query
    split <;> simp

/-- Witness for C5 at concrete inputs: a batch with one raising request
returns the empty mapping; a raising single query returns the empty
mapping for itself; a successful single query still merges its hits. -/
theorem search_failure_semantics_witness :
    (search_documents (fun s => s) ["alpha beta gamma"] [.error ()]).2 = [] ∧
    (search_single_query (fun s => s) "alpha beta gamma" (.error ())).2 = [] ∧
    (search_single_query (fun s => s) "alpha beta gamma"
        (.ok [⟨"u", "", "c", 0⟩])).2
      = if ("alpha beta gamma" = "" ∨ (pyWords "alpha beta gamma").length < 3)
        then [] else mergeHits (fun s => s) [] "alpha beta gamma" [⟨"u", "", "c", 0⟩] :=
  ⟨(search_failure_semantics (fun s => s) ["alpha beta gamma"] [.error ()]
      (List.mem_singleton.mpr rfl)).1,
   (search_failure_semantics (fun s => s) ["alpha beta gamma"] [.error ()]
      (List.mem_singleton.mpr rfl)).2.1 "alpha beta gamma",
   (search_failure_semantics (fun s => s) ["alpha beta gamma"] [.error ()]
      (List.mem_singleton.mpr rfl)).2.2 "alpha beta gamma" [⟨"u", "", "c", 0⟩]⟩

/-- Counterexample to C6 as stated: the batch fan-out path does NOT reject
a 2-word query — it dispatches a provider request for it and returns its
documents, unlike the single-query path. -/
theorem search_short_query_batch_not_filtered :
    (pyWords "ab cd").length < 3 ∧
    (search_documents (fun s => s) ["ab cd"] [.ok [⟨"u1", "", "c1", 0⟩]]).1
      = ["ab cd"] ∧
    (search_documents (fun s => s) ["ab cd"] [.ok [⟨"u1", "", "c1", 0⟩]]).2 ≠ [] := by
  refine ⟨by decide, by decide, by decide⟩

/-- C6 as amended: only the single-query path rejects empty or
shorter-than-3-word queries (returning an empty set without issuing a
provider request); the batch fan-out path performs no per-query filtering
and dispatches every query of a non-empty list (only an empty query list
short-circuits); the query generator itself does not filter short
queries. -/
theorem search_short_query_filter :
    (∀ ct : String → String, ∀ q o, (q = "" ∨ (pyWords q).length < 3) →
        search_single_query ct q o = (false, [])) ∧
    (∀ ct : String → String, ∀ queries outcomes,
        (search_documents ct queries outcomes).1
          = if queries = [] then [] else queries) ∧
    processTokens ["hi".data] = ["hi".data] := by
  refine ⟨?_, ?_, by decide⟩
  · intro ct q o hq
    simp [search_single_query, hq]
  · intro ct queries outcomes
    by_cases hq : queries = []
    · simp [search_documents, hq]
    · cases hg : gatherRes outcomes with
      | error e => simp [search_documents, hq, hg]
      | ok results => simp [search_documents, hq, hg]

/-- Witness for the amended C6 at concrete inputs: the single-query path
rejects a 2-word query without a request, while the batch path lists it as
dispatched. -/
theorem search_short_query_filter_witness :
    search_single_query (fun s => s) "ab cd" (.ok [⟨"u1", "", "c1", 0⟩])
      = (false, []) ∧
    (search_documents (fun s => s) ["ab cd"] [.ok [⟨"u1", "", "c1", 0⟩]]).1
      = if (["ab cd"] : List String) = [] then [] else ["ab cd"] :=
  ⟨search_short_query_filter.1 (fun s => s) "ab cd" (.ok [⟨"u1", "", "c1", 0⟩])
      (Or.inr (by decide)),
   search_short_query_filter.2.1 (fun s => s) ["ab cd"] [.ok [⟨"u1", "", "c1", 0⟩]]⟩

/-! ## SectionSynthesizer (`generate_category_briefing`): document selection -/

/-- A value fed to Python `float(...)`: either one it accepts (numeric,
with its rational value) or one it rejects with `ValueError`. -/
inductive FVal where
  | num (q : Rat) : FVal
  | bad : FVal
deriving DecidableEq

/-- A curated document as seen by the selection step; `score = none`
models a missing `evaluation` dict or missing `overall_score` (the source
then defaults to the string `'0'`). -/
structure DocB where
  title : List Char
  content : List Char
  rawContent : Option (List Char)
  score : Option FVal
deriving DecidableEq

/-- The sort key `float(doc.get('evaluation', {}).get('overall_score', '0'))`
for documents whose score `float` accepts (missing scores default to 0). -/
def key0 (d : DocB) : Rat :=
  match d.score with
  | none => 0
  | some (.num q) => q
  | some .bad => 0

/-- Stable insertion of a document into a list sorted descending by key:
it goes before the first element whose key does not exceed its own, so
equal keys keep original order, as Python's stable `sorted(reverse=True)`. -/
def insDesc (d : DocB) : List DocB → List DocB
  | [] => [d]
  | e :: es => if key0 e ≤ key0 d then d :: e :: es else e :: insDesc d es

/-- `sorted(items, key=..., reverse=True)` (stable, descending). -/
def sortDesc : List DocB → List DocB
  | [] => []
  | d :: ds => insDesc d (sortDesc ds)

/-- `"... [content truncated]"` appended after slicing to 8000. -/
def truncMarker : List Char := "... [content truncated]".data

/-- `if len(content) > self.max_doc_length: content[:8000] + marker`. -/
def truncateContent (c : List Char) : List Char :=
  if c.length > 8000 then c.take 8000 ++ truncMarker else c

/-- `doc.get('raw_content') or doc.get('content', '')`: falsy raw content
falls back to `content`. -/
def contentOf (d : DocB) : List Char :=
  match d.rawContent with
  | some r => if r = [] then d.content else r
  | none => d.content

/-- `f"Title: {title}\n\nContent: {content}"` with truncated content. -/
def entryOf (d : DocB) : List Char :=
  "Title: ".data ++ d.title ++ "\n\nContent: ".data ++ truncateContent (contentOf d)

/-- The accumulation loop: add whole entries while the running total stays
under 120000, and stop at the first entry that would reach it (`break`). -/
def selectLoop : List DocB → Nat → List (List Char)
  | [], _ => []
  | d :: ds, total =>
    let e := entryOf d
    if total + e.length < 120000 then e :: selectLoop ds (total + e.length) else []

/-- The whole selection step of `generate_category_briefing`: computing
the sort keys raises `ValueError` if any present score is non-numeric;
otherwise documents are sorted by score descending and accumulated. -/
def selectDocs (docs : List DocB) : Except Unit (List (List Char)) :=
  if docs.any (fun d => d.score = some .bad) then .error ()
  else .ok (selectLoop (sortDesc docs) 0)

theorem insDesc_perm (d : DocB) (l : List DocB) : (insDesc d l).Perm (d :: l) := by
  induction l with
  | nil => simp [insDesc]
  | cons e es ih =>
    simp only [insDesc]
    split
    · exact List.Perm.refl _
    · exact (ih.cons e).trans (List.Perm.swap d e es)

theorem sortDesc_perm (l : List DocB) : (sortDesc l).Perm l := by
  induction l with
  | nil => simp [sortDesc]
  | cons d ds ih => exact (insDesc_perm d (sortDesc ds)).trans (ih.cons d)

theorem insDesc_pairwise {d : DocB} {l : List DocB}
    (h : l.Pairwise (fun a b => key0 b ≤ key0 a)) :
    (insDesc d l).Pairwise (fun a b => key0 b ≤ key0 a) := by
  induction l with
  | nil => simp [insDesc]
  | cons e es ih =>
    rcases List.pairwise_cons.mp h with ⟨he, hes⟩
    simp only [insDesc]
    by_cases hk : key0 e ≤ key0 d
    · rw [if_pos hk]
      refine List.pairwise_cons.mpr ⟨?_, h⟩
      intro x hx
      rcases List.mem_cons.mp hx with h1 | h1
      · subst h1; exact hk
      · exact le_trans (he x h1) hk
    · rw [if_neg hk]
      refine List.pairwise_cons.mpr ⟨?_, ih hes⟩
      intro x hx
      have hx2 : x ∈ d :: es := (insDesc_perm d es).mem_iff.mp hx
      rcases List.mem_cons.mp hx2 with h1 | h1
      · subst h1; exact le_of_lt (lt_of_not_le hk)
      · exact he x h1

theorem sortDesc_pairwise (l : List DocB) :
    (sortDesc l).Pairwise (fun a b => key0 b ≤ key0 a) := by
  induction l with
  | nil => simp [sortDesc]
  | cons d ds ih => exact insDesc_pairwise ih

theorem selectLoop_prefix (ds : List DocB) :
    ∀ total, ∃ k, selectLoop ds total = (ds.map entryOf).take k := by
  induction ds with
  | nil => intro total; exact ⟨0, rfl⟩
  | cons d rest ih =>
    intro total
    simp only [selectLoop]
    split
    · rcases ih (total + (entryOf d).length) with ⟨k, hk⟩
      exact ⟨k + 1, by simp [hk]⟩
    · exact ⟨0, rfl⟩

theorem selectLoop_sum (ds : List DocB) :
    ∀ total, selectLoop ds total = [] ∨
      ((selectLoop ds total).map List.length).sum + total < 120000 := by
  induction ds with
  | nil => intro total; left; rfl
  | cons d rest ih =>
    intro total
    simp only [selectLoop]
    split <;> rename_i hlt
    · right
      rcases ih (total + (entryOf d).length) with h | h
      · simp only [h, List.map_cons, List.map_nil, List.sum_cons, List.sum_nil]
        omega
      · simp only [List.map_cons, List.sum_cons]
        omega
    · left; rfl

theorem truncMarker_length : truncMarker.length = 23 := by decide

theorem truncateContent_le (c : List Char) :
    (truncateContent c).length ≤ 8000 + truncMarker.length := by
  unfold truncateContent
  split <;> rename_i hlen
  · simp only [List.length_append, List.length_take]
    omega
  · rw [truncMarker_length]; omega

theorem truncateContent_id {c : List Char} (h : c.length ≤ 8000) :
    truncateContent c = c := by
  unfold truncateContent
  rw [if_neg (by omega)]

/-- Counterexample to C4 as stated: a present non-numeric `overall_score`
makes the selection step raise (`float` raises `ValueError`, which is not
caught before the prompt is built), so it is not treated as 0; and a
document of 8001 characters contributes 8023 characters (8000 plus the
23-character truncation marker), not at most 8000. -/
theorem selectDocs_counterexample :
    selectDocs [⟨[], [], none, some .bad⟩] = .error () ∧
    (truncateContent (List.replicate 8001 'a')).length = 8023 := by
  constructor
  · rfl
  · have h1 : (List.replicate 8001 'a').length = 8001 := by
      rw [List.length_replicate]
    unfold truncateContent
    rw [if_pos (by rw [h1]; omega)]
    rw [List.length_append, List.length_take, h1, truncMarker_length]
    omega

/-- C4 as amended: documents are sorted by `overall_score` descending with
missing scores treated as 0 (but a present non-numeric score raises out of
the selection step — see the counterexample); on numeric-or-missing scores
the selection succeeds, taking a prefix of whole entries of the sorted
list whose total length stays under 120000 (hard stop, no partial
include); each document's own content contributes at most 8000 characters,
with a 23-character truncation marker appended when truncated. -/
theorem selectDocs_spec (docs : List DocB)
    (hgood : ∀ d ∈ docs, d.score ≠ some FVal.bad) :
    ∃ texts, selectDocs docs = .ok texts ∧
      (∃ k, texts = ((sortDesc docs).map entryOf).take k) ∧
      (sortDesc docs).Pairwise (fun a b => key0 b ≤ key0 a) ∧
      (sortDesc docs).Perm docs ∧
      ((texts.map List.length).sum < 120000) ∧
      (∀ d : DocB, d.score = none → key0 d = 0) ∧
      (∀ c : List Char, (truncateContent c).length ≤ 8000 + truncMarker.length ∧
        (c.length ≤ 8000 → truncateContent c = c)) := by
  have hany : docs.any (fun d => d.score = some FVal.bad) = false := by
    simp only [List.any_eq_false, decide_eq_true_eq]
    exact fun d hd => hgood d hd
  have hc : ¬(docs.any (fun d => d.score = some FVal.bad) = true) := by
    rw [hany]; simp
  have hsel : selectDocs docs = .ok (selectLoop (sortDesc docs) 0) := by
    unfold selectDocs
    rw [if_neg hc]
  refine ⟨selectLoop (sortDesc docs) 0, hsel,
    selectLoop_prefix _ 0, sortDesc_pairwise docs, sortDesc_perm docs, ?_, ?_, ?_⟩
  · rcases selectLoop_sum (sortDesc docs) 0 with h | h
    · simp [h]
    · omega
  · intro d hd; simp [key0, hd]
  · intro c; exact ⟨truncateContent_le c, fun h => truncateContent_id h⟩

/-- Witness for the amended C4 at two concrete documents (one scored 2,
one with no evaluation). -/
theorem selectDocs_spec_witness :
    ∃ texts,
      selectDocs [⟨"t".data, "c".data, none, some (FVal.num 2)⟩,
                  ⟨"t2".data, "c2".data, none, none⟩] = .ok texts ∧
      (∃ k, texts = ((sortDesc [⟨"t".data, "c".data, none, some (FVal.num 2)⟩,
                  ⟨"t2".data, "c2".data, none, none⟩]).map entryOf).take k) ∧
      (sortDesc [⟨"t".data, "c".data, none, some (FVal.num 2)⟩,
                  ⟨"t2".data, "c2".data, none, none⟩]).Pairwise
        (fun a b => key0 b ≤ key0 a) ∧
      (sortDesc [⟨"t".data, "c".data, none, some (FVal.num 2)⟩,
                  ⟨"t2".data, "c2".data, none, none⟩]).Perm
        [⟨"t".data, "c".data, none, some (FVal.num 2)⟩,
                  ⟨"t2".data, "c2".data, none, none⟩] ∧
      ((texts.map List.length).sum < 120000) ∧
      (∀ d : DocB, d.score = none → key0 d = 0) ∧
      (∀ c : List Char, (truncateContent c).length ≤ 8000 + truncMarker.length ∧
        (c.length ≤ 8000 → truncateContent c = c)) :=
  selectDocs_spec
    [⟨"t".data, "c".data, none, some (FVal.num 2)⟩,
     ⟨"t2".data, "c2".data, none, none⟩]
    (by decide)

/-! ## SectionSynthesizer (`create_briefings`): tasks, semaphore, state -/

/-- The four briefing categories. -/
inductive Cat where
  | financial | news | industry | company
deriving DecidableEq

/-- Iteration order of the `categories` dict in `create_briefings`
(insertion order: financial_data, news_data, industry_data, company_data). -/
def catOrder : List Cat := [.financial, .news, .industry, .company]

/-- Categories with truthy `curated_<field>` data get a briefing task;
the others are skipped. -/
def briefingTasks (hasData : Cat → Bool) : List Cat :=
  catOrder.filter hasData

/-- The state written back by `create_briefings`: the four
`*_briefing` slots and the `briefings` map. -/
structure BState where
  slots : Cat → Option String
  briefingsMap : List (Cat × String)

/-- Pure outcome of `create_briefings`, with the per-category synthesized
content (`generate_category_briefing` is total: it catches its own
exceptions and returns `{'content': ''}`) supplied as a parameter:
categories without curated data get `state[briefing_key] = ""`
immediately; each task writes its slot exactly once with its result (its
content, or `""` on empty content); the `briefings` map collects exactly
the non-empty results. -/
def create_briefings (hasData : Cat → Bool) (synth : Cat → String)
    (init : Cat → Option String) : BState :=
  let slots0 : Cat → Option String := fun c => if hasData c then init c else some ""
  let tasks := briefingTasks hasData
  let slots1 := tasks.foldl (fun f c => fun x => if x = c then some (synth c) else f x) slots0
  let bmap := (tasks.filter (fun c => synth c ≠ "")).map (fun c => (c, synth c))
  ⟨slots1, bmap⟩

theorem foldl_update_not_mem (synth : Cat → String) (l : List Cat)
    (f : Cat → Option String) (c : Cat) (hc : c ∉ l) :
    (l.foldl (fun f c => fun x => if x = c then some (synth c) else f x) f) c = f c := by
  induction l generalizing f with
  | nil => rfl
  | cons x xs ih =>
    simp only [List.mem_cons, not_or] at hc
    simp only [List.foldl_cons]
    rw [ih _ hc.2]
    simp [hc.1]

theorem foldl_update_mem (synth : Cat → String) (l : List Cat)
    (f : Cat → Option String) (c : Cat) (hc : c ∈ l) :
    (l.foldl (fun f c => fun x => if x = c then some (synth c) else f x) f) c
      = some (synth c) := by
  induction l generalizing f with
  | nil => simp at hc
  | cons x xs ih =>
    simp only [List.foldl_cons]
    by_cases hx : c ∈ xs
    · exact ih _ hx
    · have hcx : c = x := by
        rcases List.mem_cons.mp hc with h | h
        · exact h
        · exact absurd h hx
      subst hcx
      rw [foldl_update_not_mem synth xs _ c hx]
      simp

theorem mem_catOrder (c : Cat) : c ∈ catOrder := by
  cases c <;> decide

/-- C9: after `create_briefings`, every one of the four briefing slots is
set to a string; the `briefings` map contains exactly the categories whose
synthesis produced non-empty content; and each mapped value equals the
value stored in that category's slot. -/
theorem create_briefings_state (hasData : Cat → Bool) (synth : Cat → String)
    (init : Cat → Option String) :
    (∀ c, ∃ s : String, (create_briefings hasData synth init).slots c = some s) ∧
    (∀ c v, (c, v) ∈ (create_briefings hasData synth init).briefingsMap ↔
        hasData c = true ∧ synth c ≠ "" ∧ v = synth c) ∧
    (∀ c v, (c, v) ∈ (create_briefings hasData synth init).briefingsMap →
        (create_briefings hasData synth init).slots c = some v) := by
  have hmem : ∀ c, hasData c = true → c ∈ briefingTasks hasData := by
    intro c hc
    exact List.mem_filter.mpr ⟨mem_catOrder c, hc⟩
  have hslot : ∀ c, (create_briefings hasData synth init).slots c
      = if hasData c then some (synth c) else some "" := by
    intro c
    by_cases hc : hasData c = true
    · rw [if_pos hc]
      exact foldl_update_mem synth _ _ c (hmem c hc)
    · rw [if_neg hc]
      have hnm : c ∉ briefingTasks hasData := by
        intro hmem2
        exact hc (List.of_mem_filter hmem2)
      have hdef : (create_briefings hasData synth init).slots c
          = ((briefingTasks hasData).foldl
              (fun f c => fun x => if x = c then some (synth c) else f x)
              (fun c => if hasData c then init c else some "")) c := rfl
      rw [hdef, foldl_update_not_mem synth _ _ c hnm]
      simp [hc]
  have hbm : ∀ c v, (c, v) ∈ (create_briefings hasData synth init).briefingsMap ↔
      hasData c = true ∧ synth c ≠ "" ∧ v = synth c := by
    intro c v
    show (c, v) ∈ ((briefingTasks hasData).filter (fun c => synth c ≠ "")).map
        (fun c => (c, synth c)) ↔ _
    rw [List.mem_map]
    constructor
    · rintro ⟨a, ha, heq⟩
      have h1 := List.of_mem_filter ha
      have h2 := List.mem_of_mem_filter ha
      rcases Prod.mk.injEq .. ▸ heq with ⟨rfl, rfl⟩
      refine ⟨List.of_mem_filter h2, by simpa using h1, rfl⟩
    · rintro ⟨h1, h2, rfl⟩
      exact ⟨c, List.mem_filter.mpr ⟨hmem c h1, by simpa using h2⟩, rfl⟩
  refine ⟨?_, hbm, ?_⟩
  · intro c
    rw [hslot c]
    by_cases hc : hasData c = true
    · exact ⟨synth c, by rw [if_pos hc]⟩
    · exact ⟨"", by rw [if_neg hc]⟩
  · intro c v hv
    rcases (hbm c v).mp hv with ⟨h1, h2, rfl⟩
    rw [hslot c, if_pos h1]

/-- Witness for C9 at a concrete configuration: two categories have data,
one synthesis comes back empty. -/
theorem create_briefings_state_witness :
    (∃ s : String,
      (create_briefings (fun c => c == Cat.news || c == Cat.company)
        (fun c => if c == Cat.news then "news text" else "")
        (fun _ => none)).slots Cat.financial = some s) ∧
    ((Cat.news, "news text") ∈
      (create_briefings (fun c => c == Cat.news || c == Cat.company)
        (fun c => if c == Cat.news then "news text" else "")
        (fun _ => none)).briefingsMap ↔
      (fun c => c == Cat.news || c == Cat.company) Cat.news = true ∧
      (fun c => if c == Cat.news then "news text" else "") Cat.news ≠ "" ∧
      "news text" = (fun c => if c == Cat.news then "news text" else "") Cat.news) ∧
    ((create_briefings (fun c => c == Cat.news || c == Cat.company)
        (fun c => if c == Cat.news then "news text" else "")
        (fun _ => none)).slots Cat.news = some "news text") :=
  have main := create_briefings_state
    (fun c => c == Cat.news || c == Cat.company)
    (fun c => if c == Cat.news then "news text" else "")
    (fun _ => none)
  ⟨main.1 Cat.financial,
   main.2.1 Cat.news "news text",
   main.2.2 Cat.news "news text"
     ((main.2.1 Cat.news "news text").mpr ⟨rfl, by decide, rfl⟩)⟩

/-- Counting state of `asyncio.Semaphore(2)` over the briefing tasks:
available permits and how many tasks are waiting for the gate, inside it
(awaiting `generate_category_briefing`), or finished. -/
structure SemSt where
  permits : Nat
  nPending : Nat
  nRunning : Nat
  nDone : Nat
deriving DecidableEq

/-- Interleaving semantics of `async with briefing_semaphore`: a pending
task may enter only when a permit is available (taking it); a running task
leaves and returns its permit. -/
inductive SemStep : SemSt → SemSt → Prop where
  | start (s : SemSt) (hp : 0 < s.permits) (ht : 0 < s.nPending) :
      SemStep s ⟨s.permits - 1, s.nPending - 1, s.nRunning + 1, s.nDone⟩
  | finish (s : SemSt) (hr : 0 < s.nRunning) :
      SemStep s ⟨s.permits + 1, s.nPending, s.nRunning - 1, s.nDone + 1⟩

/-- States reachable by interleaving the briefing tasks. -/
inductive SemReach (init : SemSt) : SemSt → Prop where
  | refl : SemReach init init
  | step {s s' : SemSt} : SemReach init s → SemStep s s' → SemReach init s'

/-- `asyncio.Semaphore(2)` with one task per category that has data. -/
def initSem (n : Nat) : SemSt := ⟨2, n, 0, 0⟩

theorem semReach_permits {n : Nat} {s : SemSt}
    (h : SemReach (initSem n) s) : s.permits + s.nRunning = 2 := by
  induction h with
  | refl => rfl
  | step hr hs ih =>
    cases hs with
    | start hp ht => simp only []; omega
    | finish hrr => simp only []; omega

/-- C7: in every execution of `create_briefings`, at most 2 synthesis
requests are in flight simultaneously — the `Semaphore(2)` gate admits at
most 2 concurrent `generate_category_briefing` invocations in every
reachable interleaving, even with all 4 categories non-empty; and a
category without curated data never becomes a task (so it competes for no
permit and issues no request) and has its briefing slot set to `""`
directly. -/
theorem create_briefings_concurrency (hasData : Cat → Bool)
    (synth : Cat → String) (init : Cat → Option String) (s : SemSt)
    (h : SemReach (initSem (briefingTasks hasData).length) s) :
    s.nRunning ≤ 2 ∧
    (∀ c, hasData c = false →
      c ∉ briefingTasks hasData ∧
      (create_briefings hasData synth init).slots c = some "") := by
  constructor
  · have := semReach_permits h
    omega
  · intro c hc
    have hnm : c ∉ briefingTasks hasData := by
      intro hmem
      rw [List.of_mem_filter hmem] at hc
      exact Bool.noConfusion hc
    refine ⟨hnm, ?_⟩
    have hdef : (create_briefings hasData synth init).slots c
        = ((briefingTasks hasData).foldl
            (fun f c => fun x => if x = c then some (synth c) else f x)
            (fun c => if hasData c then init c else some "")) c := rfl
    rw [hdef, foldl_update_not_mem synth _ _ c hnm]
    simp [hc]

/-- Witness for C7: with three data-bearing categories, the state after
two tasks have entered the gate is reachable and has exactly 2 running;
the dataless category is not a task and its slot is the empty string. -/
theorem create_briefings_concurrency_witness :
    (⟨0, 1, 2, 0⟩ : SemSt).nRunning ≤ 2 ∧
    (Cat.news ∉ briefingTasks (fun c => !(c == Cat.news)) ∧
      (create_briefings (fun c => !(c == Cat.news)) (fun _ => "text")
        (fun _ => none)).slots Cat.news = some "") :=
  have h3 : briefingTasks (fun c => !(c == Cat.news)) =
      [Cat.financial, Cat.industry, Cat.company] := by decide
  have hr : SemReach (initSem (briefingTasks (fun c => !(c == Cat.news))).length)
      ⟨0, 1, 2, 0⟩ := by
    rw [h3]
    exact SemReach.step
      (SemReach.step SemReach.refl
        (SemStep.start (initSem 3) (by decide) (by decide)))
      (SemStep.start ⟨1, 2, 1, 0⟩ (by decide) (by decide))
  have main := create_briefings_concurrency (fun c => !(c == Cat.news))
    (fun _ => "text") (fun _ => none) ⟨0, 1, 2, 0⟩ hr
  ⟨main.1, main.2 Cat.news (by decide)⟩

/-! ## ReportCompiler (`editor.py`: `compile_briefings`, `edit_report`) -/

/-- Iteration order of the `briefing_keys` dict in `compile_briefings`. -/
def editorOrder : List Cat := [.company, .industry, .financial, .news]

def catName : Cat → String
  | .company => "company"
  | .industry => "industry"
  | .financial => "financial"
  | .news => "news"

/-- The placeholder appended when no briefing section is available. -/
def noBriefingsMsg : String := "\n⚠️ No briefing sections available to compile"

/-- The collection phase of `compile_briefings`: gathers the non-empty
briefing slots in fixed order and builds the progress message lines; when
none are found the placeholder line is appended and `edit_report` (hence
the compile and cleanup stages) is never invoked (first component). The
function is total: it cannot raise. -/
def compile_briefings (company : String) (slots : Cat → String) :
    Bool × List String :=
  let header := s!"📑 Compiling final report for {company}..."
  let catMsgs := editorOrder.map (fun c =>
    if slots c ≠ "" then "Found " ++ catName c ++ " briefing"
    else "No " ++ catName c ++ " briefing available")
  let found := editorOrder.filter (fun c => slots c ≠ "")
  if found = [] then (false, header :: catMsgs ++ [noBriefingsMsg])
  else (true, header :: catMsgs)

/-- C8: with zero non-empty briefing slots, `compile_briefings` makes no
compile or cleanup call (it never reaches `edit_report`), does not crash
(it is a total function returning the updated message state), and its
output carries the explanatory placeholder line. -/
theorem compile_briefings_no_input (company : String) (slots : Cat → String)
    (h : ∀ c, slots c = "") :
    (compile_briefings company slots).1 = false ∧
    noBriefingsMsg ∈ (compile_briefings company slots).2 := by
  have hfound : editorOrder.filter (fun c => slots c ≠ "") = [] := by
    simp [editorOrder, h]
  constructor
  · simp only [compile_briefings]
    rw [if_pos hfound]
  · simp only [compile_briefings]
    rw [if_pos hfound]
    simp

/-- Witness for C8: a concrete state with all four slots empty. -/
theorem compile_briefings_no_input_witness :
    (compile_briefings "ACME" (fun _ => "")).1 = false ∧
    noBriefingsMsg ∈ (compile_briefings "ACME" (fun _ => "")).2 :=
  compile_briefings_no_input "ACME" (fun _ => "") (fun _ => rfl)

/-- The slice of state `edit_report` writes on success. -/
structure ESt where
  report : Option String
  status : Option String
  editorReport : Option String
deriving DecidableEq

/-- `edit_report`, with its awaited collaborators supplied as parameters:
`compile_content` may raise (its references formatting step is outside its
own try) or return a string; `content_sweep` catches all its own
exceptions and is total. An empty initial compilation, a blank final
text, or a raised exception all return `""` before any state write; only
a non-blank final text writes `report`, `status` and the mirrored editor
report. -/
def edit_report (st : ESt) (compileOutcome : Except Unit String)
    (sweep : String → String) : ESt × String :=
  match compileOutcome with
  | .error _ => (st, "")
  | .ok edited =>
    if edited = "" then (st, "")
    else
      let finalR := sweep edited
      if finalR.trim = "" then (st, "")
      else
        ({ report := some finalR, status := some "editor_complete",
           editorReport := some finalR }, finalR)

theorem edit_report_ok_eq (st : ESt) (ed : String) (sweep : String → String) :
    edit_report st (.ok ed) sweep =
      if ed = "" then (st, "")
      else if (sweep ed).trim = "" then (st, "")
      else ({ report := some (sweep ed), status := some "editor_complete",
              editorReport := some (sweep ed) }, sweep ed) := rfl

/-- C10: `edit_report` writes the report (and the mirrored editor report)
only when the final cleaned text is non-blank; on every failure path — the
initial compilation raising or returning an empty string, or the final
text being blank — it returns the empty string and leaves the state
untouched, and it never raises (it is total). -/
theorem edit_report_state_guard (st : ESt) (co : Except Unit String)
    (sweep : String → String) :
    ((edit_report st co sweep).2 ≠ "" →
      (edit_report st co sweep).1.report = some (edit_report st co sweep).2 ∧
      (edit_report st co sweep).1.editorReport = some (edit_report st co sweep).2 ∧
      ((edit_report st co sweep).2).trim ≠ "") ∧
    (co = .error () → edit_report st co sweep = (st, "")) ∧
    (∀ ed, co = .ok ed → ed = "" → edit_report st co sweep = (st, "")) ∧
    (∀ ed, co = .ok ed → (sweep ed).trim = "" → edit_report st co sweep = (st, "")) ∧
    ((edit_report st co sweep).1 ≠ st → (edit_report st co sweep).2.trim ≠ "") := by
  rcases co with e | ed
  · cases e
    exact ⟨fun h2 => absurd rfl h2, fun _ => rfl,
      fun ed h => absurd h (by simp), fun ed h => absurd h (by simp),
      fun hst => absurd rfl hst⟩
  · rw [edit_report_ok_eq]
    by_cases hed : ed = ""
    · rw [if_pos hed]
      exact ⟨fun h2 => absurd rfl h2, fun h => absurd h (by simp),
        fun _ _ _ => rfl, fun _ _ _ => rfl, fun hst => absurd rfl hst⟩
    · rw [if_neg hed]
      by_cases hsw : (sweep ed).trim = ""
      · rw [if_pos hsw]
        exact ⟨fun h2 => absurd rfl h2, fun h => absurd h (by simp),
          fun ed2 h he => absurd (by rw [← (Except.ok.injEq .. ▸ h : ed = ed2)] at he; exact he) hed,
          fun _ _ _ => rfl, fun hst => absurd rfl hst⟩
      · rw [if_neg hsw]
        refine ⟨fun _ => ⟨rfl, rfl, hsw⟩, fun h => absurd h (by simp), ?_, ?_, fun _ => hsw⟩
        · intro ed2 h he
          rw [← (Except.ok.injEq .. ▸ h : ed = ed2)] at he
          exact absurd he hed
        · intro ed2 h he
          rw [← (Except.ok.injEq .. ▸ h : ed = ed2)] at he
          exact absurd he hsw

/-- Witness for C10 at concrete inputs: a successful sweep writes the
report, a raising compilation leaves the state untouched and returns "". -/
theorem edit_report_state_guard_witness :
    ((edit_report ⟨none, none, none⟩ (.ok "hello") (fun s => s)).2 ≠ "" →
      (edit_report ⟨none, none, none⟩ (.ok "hello") (fun s => s)).1.report
        = some (edit_report ⟨none, none, none⟩ (.ok "hello") (fun s => s)).2 ∧
      (edit_report ⟨none, none, none⟩ (.ok "hello") (fun s => s)).1.editorReport
        = some (edit_report ⟨none, none, none⟩ (.ok "hello") (fun s => s)).2 ∧
      ((edit_report ⟨none, none, none⟩ (.ok "hello") (fun s => s)).2).trim ≠ "") ∧
    edit_report ⟨none, none, none⟩ (.error ()) (fun s => s) = (⟨none, none, none⟩, "") :=
  ⟨(edit_report_state_guard ⟨none, none, none⟩ (.ok "hello") (fun s => s)).1,
   (edit_report_state_guard ⟨none, none, none⟩ (.error ()) (fun s => s)).2.1 rfl⟩

end CRA
